import Mathlib

/-!
Shallow embedding of the density-point synthesis loop and the column-name
guesser of `page_3Dmap-1.py`.

The numeric cells of the uploaded table are coerced with
`pd.to_numeric(..., errors='coerce')`, which yields either a floating-point
number, `NaN` (for missing or non-numeric cells) or an infinity (the CSV
reader and `to_numeric` both accept `inf` / very large literals).  We model
the coerced value symbolically: finite values are exact rationals, and the
IEEE specials `nan`, `inf`, `-inf` are explicit constructors.  Python's
`int()` on a special raises (`ValueError` on NaN, `OverflowError` on an
infinity), which we model with `Except`.  The global NumPy random generator
is modelled as a stream `g : ℕ → ℚ` of standard-normal draws together with
the index of the next draw to be consumed.
-/

namespace DensityMap

/-- A coerced cell value: a finite float (modelled exactly as a rational) or
one of the IEEE specials produced by `pd.to_numeric(..., errors='coerce')`. -/
inductive PyFloat where
  | num (q : ℚ)
  | nan
  | inf
  | neginf
  deriving DecidableEq, Repr

/-- Model of pd.isna on a scalar float: true exactly on NaN (infinities are
NOT na). -/
def PyFloat.isna : PyFloat → Bool
  | .nan => true
  | _ => false

/-- IEEE addition of a (possibly special) float and a finite float,
as in `lat + np.random.randn() / 500`. -/
def PyFloat.addQ : PyFloat → ℚ → PyFloat
  | .num a, q => .num (a + q)
  | .nan, _ => .nan
  | .inf, _ => .inf
  | .neginf, _ => .neginf

/-- One row of the uploaded table after the three `pd.to_numeric` coercions
of `page_3Dmap-1.py` lines 81-83. -/
structure RawRecord where
  lat : PyFloat
  lon : PyFloat
  weight : PyFloat
  deriving DecidableEq, Repr

/-- One synthesized map point, the dict appended at lines 95-98. -/
structure Point where
  lat : PyFloat
  lon : PyFloat
  deriving DecidableEq, Repr

/-- Python/NumPy true division `weight / scale_factor` where `scale_factor`
is the slider's integer.  Division of a finite nonzero float by zero yields a
signed infinity (NumPy emits a warning, not an exception); `0/0` is NaN;
an infinity divided by a finite value keeps its (sign-adjusted) infinity. -/
def pyDiv (w : PyFloat) (s : ℤ) : PyFloat :=
  match w with
  | .nan => .nan
  | .inf => if 0 ≤ s then .inf else .neginf
  | .neginf => if 0 ≤ s then .neginf else .inf
  | .num q =>
    if s = 0 then
      if 0 < q then .inf else if q < 0 then .neginf else .nan
    else .num (q / (s : ℚ))

/-- Truncation toward zero, the behaviour of Python's `int()` on a finite
float. -/
def truncQ (q : ℚ) : ℤ := if 0 ≤ q then ⌊q⌋ else ⌈q⌉

/-- Python's `int()` on a float: truncates finite values toward zero, raises
`ValueError` on NaN and `OverflowError` on an infinity. -/
def pyInt : PyFloat → Except String ℤ
  | .num q => .ok (truncQ q)
  | .nan => .error "ValueError: cannot convert float NaN to integer"
  | .inf => .error "OverflowError: cannot convert float infinity to integer"
  | .neginf => .error "OverflowError: cannot convert float infinity to integer"

/-- The inner loop of lines 94-98: emit `n` points around `(lat, lon)`.
Each point consumes two fresh draws from the stream `g`, the latitude draw
first (Python evaluates the dict entries left to right); `k` is the index of
the next unconsumed draw and is returned advanced. -/
def mkPoints (lat lon : PyFloat) (g : ℕ → ℚ) : ℕ → ℕ → List Point × ℕ
  | 0, k => ([], k)
  | n + 1, k =>
    (⟨lat.addQ (g k / 500), lon.addQ (g (k + 1) / 500)⟩ ::
        (mkPoints lat lon g n (k + 2)).1,
      (mkPoints lat lon g n (k + 2)).2)

/-- The synthesis loop of lines 78-98, threading the random-stream index:
for each row, coerced values with any NaN are skipped (`continue`), otherwise
`num_points = int(weight / scale_factor)` and `range(num_points)` (empty for
a non-positive count) appends the jittered points.  An exception from
`int()` aborts the loop. -/
def synthAuxS (s : ℤ) (g : ℕ → ℚ) : List RawRecord → ℕ → Except String (List Point × ℕ)
  | [], k => .ok ([], k)
  | r :: rs, k =>
    if r.weight.isna || r.lat.isna || r.lon.isna then
      synthAuxS s g rs k
    else
      match pyInt (pyDiv r.weight s) with
      | .error e => .error e
      | .ok n =>
        match synthAuxS s g rs (mkPoints r.lat r.lon g n.toNat k).2 with
        | .error e => .error e
        | .ok rk => .ok ((mkPoints r.lat r.lon g n.toNat k).1 ++ rk.1, rk.2)

/-- The synthesizer as invoked by the script: start from the first unconsumed
draw and return the flat list of points. -/
def synthesize (records : List RawRecord) (s : ℤ) (g : ℕ → ℚ) :
    Except String (List Point) :=
  (synthAuxS s g records 0).map Prod.fst

/-- Number of points a single record contributes (0 when filtered or when the
loop would abort on that record). -/
def recordCount (s : ℤ) (r : RawRecord) : ℕ :=
  if r.weight.isna || r.lat.isna || r.lon.isna then 0
  else
    match pyInt (pyDiv r.weight s) with
    | .error _ => 0
    | .ok n => n.toNat

/-- Lower-casing of a string, `str.lower()` (modelled per character). -/
def lowerStr (s : List Char) : List Char := s.map Char.toLower

/-- Test that `needle` is an initial segment of `hay`. -/
def leadMatch : List Char → List Char → Bool
  | [], _ => true
  | _ :: _, [] => false
  | a :: as, b :: bs => a == b && leadMatch as bs

/-- Python's substring test `needle in hay`. -/
def containsSub (hay needle : List Char) : Bool :=
  match hay with
  | [] => needle.isEmpty
  | _ :: t => leadMatch needle hay || containsSub t needle

/-- The inner `for col in columns` loop of `guess_column`: first column whose
lower-cased name contains the lower-cased candidate. -/
def firstColMatch (name : List Char) : List (List Char) → Option (List Char)
  | [] => none
  | c :: cs =>
    if containsSub (lowerStr c) (lowerStr name) then some c
    else firstColMatch name cs

/-- The helper guess_column of lines 39-44: try the candidate
substrings in order, return the first matching column, otherwise fall back to
`columns[0]` (`none` models the IndexError on an empty column list). -/
def guess_column : List (List Char) → List (List Char) → Option (List Char)
  | [], columns => columns.head?
  | n :: ns, columns =>
    match firstColMatch n columns with
    | some c => some c
    | none => guess_column ns columns

/-- Decidable equality for Except results, so that concrete runs of the
synthesizer can be checked by evaluation. -/
instance {ε α : Type _} [DecidableEq ε] [DecidableEq α] : DecidableEq (Except ε α) :=
  fun x y =>
    match x, y with
    | .error e, .error f =>
      if h : e = f then .isTrue (by subst h; rfl)
      else .isFalse (fun hh => h (by injection hh))
    | .ok a, .ok b =>
      if h : a = b then .isTrue (by subst h; rfl)
      else .isFalse (fun hh => h (by injection hh))
    | .error _, .ok _ => .isFalse (fun hh => Except.noConfusion hh)
    | .ok _, .error _ => .isFalse (fun hh => Except.noConfusion hh)

/-! ### Basic lemmas -/

theorem truncQ_of_nonneg {q : ℚ} (h : 0 ≤ q) : truncQ q = ⌊q⌋ := by
  simp [truncQ, h]

theorem truncQ_nonpos {q : ℚ} (h : q ≤ 0) : truncQ q ≤ 0 := by
  unfold truncQ
  split
  · exact le_trans (Int.floor_le_floor h) (by simp)
  · exact Int.ceil_le.mpr (by exact_mod_cast h)

theorem mkPoints_eq (lat lon : PyFloat) (g : ℕ → ℚ) (n : ℕ) : ∀ k : ℕ,
    mkPoints lat lon g n k =
      ((List.range n).map (fun i =>
        ({ lat := lat.addQ (g (k + 2 * i) / 500),
           lon := lon.addQ (g (k + 2 * i + 1) / 500) } : Point)),
        k + 2 * n) := by
  induction n with
  | zero => intro k; simp [mkPoints]
  | succ n ih =>
    intro k
    have tail_eq :
        List.map (fun i =>
            ({ lat := lat.addQ (g (k + 2 + 2 * i) / 500),
               lon := lon.addQ (g (k + 2 + 2 * i + 1) / 500) } : Point))
          (List.range n)
          = List.map ((fun i =>
            ({ lat := lat.addQ (g (k + 2 * i) / 500),
               lon := lon.addQ (g (k + 2 * i + 1) / 500) } : Point)) ∘ Nat.succ)
          (List.range n) := by
      apply List.map_congr_left
      intro i _
      simp only [Function.comp_apply]
      have e1 : k + 2 + 2 * i = k + 2 * Nat.succ i := by omega
      rw [e1]
    rw [mkPoints, ih (k + 2)]
    rw [List.range_succ_eq_map, List.map_cons, List.map_map]
    dsimp only
    rw [tail_eq]
    refine Prod.ext ?_ ?_
    · dsimp only
      norm_num
    · dsimp only
      omega

theorem mkPoints_len (lat lon : PyFloat) (g : ℕ → ℚ) (n k : ℕ) :
    (mkPoints lat lon g n k).1.length = n := by
  rw [mkPoints_eq]; simp

theorem truncQ_intCast (n : ℤ) : truncQ ((n : ℚ)) = n := by
  rw [truncQ]
  split <;> simp

/-- Running the loop body on a single record whose coerced weight is finite
and whose latitude and longitude are not NaN, with a nonzero scale factor,
yields one point per loop iteration, consuming two fresh normal draws per
point (latitude draw first). -/
theorem synthAuxS_single (la lo : PyFloat) (w : ℚ) (s : ℤ) (g : ℕ → ℚ) (k : ℕ)
    (hs : s ≠ 0) (hla : la.isna = false) (hlo : lo.isna = false) :
    synthAuxS s g [⟨la, lo, .num w⟩] k =
      .ok ((List.range (truncQ (w / (s : ℚ))).toNat).map (fun i =>
        ({ lat := la.addQ (g (k + 2 * i) / 500),
           lon := lo.addQ (g (k + 2 * i + 1) / 500) } : Point)),
        k + 2 * (truncQ (w / (s : ℚ))).toNat) := by
  have hdiv : pyDiv (.num w) s = .num (w / (s : ℚ)) := by
    rw [pyDiv]; simp [hs]
  have hcond : ((PyFloat.num w).isna || la.isna || lo.isna) = false := by
    rw [hla, hlo]; rfl
  rw [synthAuxS, synthAuxS]
  rw [hcond, if_neg Bool.false_ne_true]
  rw [hdiv]
  rw [pyInt]
  simp only []
  rw [mkPoints_eq]
  rw [synthAuxS]
  simp

/-- Same as synthAuxS_single, at the synthesizer's entry point. -/
theorem synthesize_single (la lo : PyFloat) (w : ℚ) (s : ℤ) (g : ℕ → ℚ)
    (hs : s ≠ 0) (hla : la.isna = false) (hlo : lo.isna = false) :
    synthesize [⟨la, lo, .num w⟩] s g =
      .ok ((List.range (truncQ (w / (s : ℚ))).toNat).map (fun i =>
        ({ lat := la.addQ (g (2 * i) / 500),
           lon := lo.addQ (g (2 * i + 1) / 500) } : Point))) := by
  rw [synthesize, synthAuxS_single la lo w s g 0 hs hla hlo]
  simp [Except.map]

/-- Concrete evaluation helper: a single all-finite record under a constant
random stream, when the weight over the scale factor is the integer `m`. -/
theorem synthAuxS_single_const (a b w c : ℚ) (s m : ℤ) (k : ℕ)
    (hs : s ≠ 0) (hm : w / (s : ℚ) = (m : ℚ)) :
    synthAuxS s (fun _ => c) [⟨.num a, .num b, .num w⟩] k =
      .ok (List.replicate m.toNat
        (⟨.num (a + c / 500), .num (b + c / 500)⟩ : Point), k + 2 * m.toNat) := by
  rw [synthAuxS_single (.num a) (.num b) w s (fun _ => c) k hs rfl rfl, hm, truncQ_intCast]
  simp [PyFloat.addQ]

theorem mkPoints_snd (lat lon : PyFloat) (g : ℕ → ℚ) (n k : ℕ) :
    (mkPoints lat lon g n k).2 = k + 2 * n := by
  rw [mkPoints_eq]

/-- Whenever the loop completes without an exception, the number of emitted
points is the sum over the records of their individual point counts, and the
random stream has advanced by exactly two draws per emitted point. -/
theorem synthAuxS_ok (s : ℤ) (g : ℕ → ℚ) :
    ∀ (rs : List RawRecord) (k : ℕ) (ps : List Point) (k' : ℕ),
      synthAuxS s g rs k = .ok (ps, k') →
      ps.length = (rs.map (recordCount s)).sum ∧ k' = k + 2 * ps.length := by
  intro rs
  induction rs with
  | nil =>
    intro k ps k' h
    rw [synthAuxS] at h
    simp only [Except.ok.injEq, Prod.mk.injEq] at h
    obtain ⟨hps, hk⟩ := h
    subst hps
    subst hk
    simp
  | cons r rs ih =>
    intro k ps k' h
    rw [synthAuxS] at h
    by_cases hf : (r.weight.isna || r.lat.isna || r.lon.isna) = true
    · rw [if_pos hf] at h
      obtain ⟨h1, h2⟩ := ih k ps k' h
      refine ⟨?_, h2⟩
      rw [h1]
      simp [recordCount, hf]
    · rw [if_neg hf] at h
      rcases hn : pyInt (pyDiv r.weight s) with e | n
      · rw [hn] at h
        exact absurd h (by simp)
      · rw [hn] at h
        simp only [] at h
        rcases h2 : synthAuxS s g rs (mkPoints r.lat r.lon g n.toNat k).2 with e | rk
        · rw [h2] at h
          exact absurd h (by simp)
        · rw [h2] at h
          simp only [Except.ok.injEq, Prod.mk.injEq] at h
          obtain ⟨hps, hk⟩ := h
          obtain ⟨ih1, ih2⟩ := ih _ rk.1 rk.2 (by rw [h2])
          constructor
          · rw [← hps, List.length_append, mkPoints_len, ih1]
            simp [recordCount, hf, hn]
          · rw [← hk, ih2, mkPoints_snd, ← hps, List.length_append, mkPoints_len]
            omega

/-- Points of consecutive record batches concatenate in input order. -/
theorem synthAuxS_append (s : ℤ) (g : ℕ → ℚ) :
    ∀ (rs1 rs2 : List RawRecord) (k : ℕ) (ps1 : List Point) (k1 : ℕ)
      (ps2 : List Point) (k2 : ℕ),
      synthAuxS s g rs1 k = .ok (ps1, k1) →
      synthAuxS s g rs2 k1 = .ok (ps2, k2) →
      synthAuxS s g (rs1 ++ rs2) k = .ok (ps1 ++ ps2, k2) := by
  intro rs1
  induction rs1 with
  | nil =>
    intro rs2 k ps1 k1 ps2 k2 h1 h2
    rw [synthAuxS] at h1
    simp only [Except.ok.injEq, Prod.mk.injEq] at h1
    obtain ⟨hps, hk⟩ := h1
    subst hps
    subst hk
    simpa using h2
  | cons r rs ih =>
    intro rs2 k ps1 k1 ps2 k2 h1 h2
    rw [synthAuxS] at h1
    rw [List.cons_append, synthAuxS]
    by_cases hf : (r.weight.isna || r.lat.isna || r.lon.isna) = true
    · rw [if_pos hf] at h1 ⊢
      exact ih rs2 k ps1 k1 ps2 k2 h1 h2
    · rw [if_neg hf] at h1 ⊢
      rcases hn : pyInt (pyDiv r.weight s) with e | n
      · rw [hn] at h1
        exact absurd h1 (by simp)
      · rw [hn] at h1
        simp only [] at h1
        rcases hrest : synthAuxS s g rs (mkPoints r.lat r.lon g n.toNat k).2 with e | rk
        · rw [hrest] at h1
          exact absurd h1 (by simp)
        · rw [hrest] at h1
          simp only [Except.ok.injEq, Prod.mk.injEq] at h1
          obtain ⟨hps, hk⟩ := h1
          have htail := ih rs2 _ rk.1 rk.2 ps2 k2 (by rw [hrest]) (by rw [hk]; exact h2)
          simp only []
          rw [htail]
          simp [← hps, List.append_assoc]

/-- The loop's output does not depend on the absolute position of the random
stream: running from draw index `d + k` is the same as running from index `k`
on the stream shifted by `d`. -/
theorem synthAuxS_shift (s : ℤ) (g : ℕ → ℚ) (d : ℕ) :
    ∀ (rs : List RawRecord) (k : ℕ),
      synthAuxS s g rs (d + k) =
        (synthAuxS s (fun i => g (d + i)) rs k).map (fun pk => (pk.1, d + pk.2)) := by
  intro rs
  induction rs with
  | nil => intro k; rw [synthAuxS, synthAuxS]; rfl
  | cons r rs ih =>
    intro k
    rw [synthAuxS, synthAuxS]
    by_cases hf : (r.weight.isna || r.lat.isna || r.lon.isna) = true
    · rw [if_pos hf, if_pos hf]; exact ih k
    · rw [if_neg hf, if_neg hf]
      rcases hn : pyInt (pyDiv r.weight s) with e | n
      · rfl
      · simp only []
        have hm2 : (mkPoints r.lat r.lon g n.toNat (d + k)).2 =
            d + (mkPoints r.lat r.lon (fun i => g (d + i)) n.toNat k).2 := by
          rw [mkPoints_snd, mkPoints_snd]; omega
        have hm1 : (mkPoints r.lat r.lon g n.toNat (d + k)).1 =
            (mkPoints r.lat r.lon (fun i => g (d + i)) n.toNat k).1 := by
          rw [mkPoints_eq, mkPoints_eq]
          dsimp only
          apply List.map_congr_left
          intro i _
          have e1 : d + k + 2 * i = d + (k + 2 * i) := by omega
          rw [e1]
          have e2 : d + (k + 2 * i) + 1 = d + (k + 2 * i + 1) := by omega
          rw [e2]
        rw [hm1, hm2, ih ((mkPoints r.lat r.lon (fun i => g (d + i)) n.toNat k).2)]
        rcases hrest : synthAuxS s (fun i => g (d + i)) rs
            ((mkPoints r.lat r.lon (fun i => g (d + i)) n.toNat k).2) with e | rk
        · rfl
        · rfl

/-- Totality: with a nonzero scale factor and no infinite weight, the loop
never reaches an exception. -/
theorem synthAuxS_total (s : ℤ) (g : ℕ → ℚ) (hs : s ≠ 0) :
    ∀ (rs : List RawRecord),
      (∀ r ∈ rs, r.weight ≠ PyFloat.inf ∧ r.weight ≠ PyFloat.neginf) →
      ∀ k, ∃ ps k', synthAuxS s g rs k = .ok (ps, k') := by
  intro rs
  induction rs with
  | nil => intro _ k; exact ⟨[], k, by rw [synthAuxS]⟩
  | cons r rs ih =>
    intro hw k
    have hr := hw r (List.mem_cons_self r rs)
    have hrs : ∀ r' ∈ rs, r'.weight ≠ PyFloat.inf ∧ r'.weight ≠ PyFloat.neginf :=
      fun r' hr' => hw r' (List.mem_cons_of_mem r hr')
    rw [synthAuxS]
    by_cases hf : (r.weight.isna || r.lat.isna || r.lon.isna) = true
    · rw [if_pos hf]; exact ih hrs k
    · rw [if_neg hf]
      obtain ⟨q, hq⟩ : ∃ q, r.weight = PyFloat.num q := by
        rcases hwc : r.weight with q | _ | _ | _
        · exact ⟨q, rfl⟩
        · exact absurd (by simp [hwc, PyFloat.isna]) hf
        · exact absurd hwc hr.1
        · exact absurd hwc hr.2
      have hdiv : pyDiv r.weight s = .num (q / (s : ℚ)) := by
        rw [hq, pyDiv]; simp [hs]
      rw [hdiv, pyInt]
      simp only []
      obtain ⟨ps, k', hps⟩ :=
        ih hrs ((mkPoints r.lat r.lon g (truncQ (q / (s : ℚ))).toNat k).2)
      rw [hps]
      exact ⟨_, _, rfl⟩

/-- With a negative scale factor, records whose weight is NaN or a nonneg
finite value contribute nothing, and the loop returns an empty list without
touching the random stream. -/
theorem synthAuxS_negscale (s : ℤ) (g : ℕ → ℚ) (hs : s < 0) :
    ∀ (rs : List RawRecord),
      (∀ r ∈ rs, r.weight = PyFloat.nan ∨ ∃ w, r.weight = PyFloat.num w ∧ 0 ≤ w) →
      ∀ k, synthAuxS s g rs k = .ok ([], k) := by
  intro rs
  induction rs with
  | nil => intro _ k; rw [synthAuxS]
  | cons r rs ih =>
    intro hw k
    have hr := hw r (List.mem_cons_self r rs)
    have hrs : ∀ r' ∈ rs, r'.weight = PyFloat.nan ∨ ∃ w, r'.weight = PyFloat.num w ∧ 0 ≤ w :=
      fun r' hr' => hw r' (List.mem_cons_of_mem r hr')
    rw [synthAuxS]
    by_cases hf : (r.weight.isna || r.lat.isna || r.lon.isna) = true
    · rw [if_pos hf]; exact ih hrs k
    · rw [if_neg hf]
      rcases hr with hnan | ⟨w, hw', hw0⟩
      · exact absurd (by simp [hnan, PyFloat.isna]) hf
      · have hdiv : pyDiv r.weight s = .num (w / (s : ℚ)) := by
          rw [hw', pyDiv]; simp [hs.ne]
        rw [hdiv, pyInt]
        simp only []
        have hsq : (s : ℚ) ≤ 0 := by exact_mod_cast hs.le
        have hq : w / (s : ℚ) ≤ 0 := div_nonpos_of_nonneg_of_nonpos hw0 hsq
        have hn0 : (truncQ (w / (s : ℚ))).toNat = 0 :=
          Int.toNat_of_nonpos (truncQ_nonpos hq)
        rw [hn0]
        simp only [mkPoints]
        rw [ih hrs k]
        rfl

/-- Removing a record any of whose coerced fields is NaN does not change the
loop's outcome at all. -/
theorem synthAuxS_skip (s : ℤ) (g : ℕ → ℚ) (r : RawRecord)
    (hr : (r.weight.isna || r.lat.isna || r.lon.isna) = true) :
    ∀ (l1 l2 : List RawRecord) (k : ℕ),
      synthAuxS s g (l1 ++ r :: l2) k = synthAuxS s g (l1 ++ l2) k := by
  intro l1
  induction l1 with
  | nil =>
    intro l2 k
    simp only [List.nil_append]
    rw [synthAuxS, if_pos hr]
  | cons a l1 ih =>
    intro l2 k
    simp only [List.cons_append]
    rw [synthAuxS, synthAuxS]
    by_cases hf : (a.weight.isna || a.lat.isna || a.lon.isna) = true
    · rw [if_pos hf, if_pos hf]; exact ih l2 k
    · rw [if_neg hf, if_neg hf]
      rcases hn : pyInt (pyDiv a.weight s) with e | n
      · rfl
      · simp only []
        rw [ih l2 ((mkPoints a.lat a.lon g n.toNat k).2)]

/-- A match returned by the inner column loop is one of the columns. -/
theorem firstColMatch_mem (name : List Char) :
    ∀ (cols : List (List Char)) (c : List Char),
      firstColMatch name cols = some c → c ∈ cols := by
  intro cols
  induction cols with
  | nil =>
    intro c h
    rw [firstColMatch] at h
    exact absurd h (by simp)
  | cons a cs ih =>
    intro c h
    rw [firstColMatch] at h
    by_cases hc : containsSub (lowerStr a) (lowerStr name) = true
    · rw [if_pos hc] at h
      injection h with h2
      subst h2
      exact List.mem_cons_self a cs
    · rw [if_neg hc] at h
      exact List.mem_cons_of_mem a (ih c h)

/-- guess_column always answers with one of the available columns when there
is at least one. -/
theorem guess_column_mem :
    ∀ (ns cols : List (List Char)), cols ≠ [] →
      ∃ c, guess_column ns cols = some c ∧ c ∈ cols := by
  intro ns
  induction ns with
  | nil =>
    intro cols hc
    rcases cols with _ | ⟨a, cs⟩
    · exact absurd rfl hc
    · exact ⟨a, by rw [guess_column]; rfl, List.mem_cons_self a cs⟩
  | cons n ns ih =>
    intro cols hc
    rcases hm : firstColMatch n cols with _ | c
    · obtain ⟨c, hg, hmem⟩ := ih cols hc
      refine ⟨c, ?_, hmem⟩
      rw [guess_column, hm]
      exact hg
    · refine ⟨c, ?_, firstColMatch_mem n cols c hm⟩
      rw [guess_column, hm]

/-- When no candidate matches any column, guess_column falls back to the
first column. -/
theorem guess_column_fallback :
    ∀ (ns cols : List (List Char)),
      (∀ n ∈ ns, firstColMatch n cols = none) →
      guess_column ns cols = cols.head? := by
  intro ns
  induction ns with
  | nil => intro cols _; rw [guess_column]
  | cons n ns ih =>
    intro cols h
    rw [guess_column, h n (List.mem_cons_self n ns)]
    exact ih cols (fun n' hn' => h n' (List.mem_cons_of_mem n hn'))

/-! ### Claims -/

/-- C1: for every record whose latitude, longitude and weight are numeric,
with weight w > 0 and scaleFactor s > 0, the density point synthesis loop
emits exactly floor(w / s) points for that record (truncation, which agrees
with floor on positive quotients - not rounding or ceiling). -/
theorem spec_C1 (a b w : ℚ) (s : ℤ) (g : ℕ → ℚ) (hw : 0 < w) (hs : 0 < s) :
    recordCount s ⟨.num a, .num b, .num w⟩ = (⌊w / (s : ℚ)⌋).toNat ∧
    ∃ ps, synthesize [⟨.num a, .num b, .num w⟩] s g = .ok ps ∧
      (ps.length : ℤ) = ⌊w / (s : ℚ)⌋ := by
  have hsq : (0 : ℚ) < (s : ℚ) := by exact_mod_cast hs
  have hq : 0 ≤ w / (s : ℚ) := le_of_lt (div_pos hw hsq)
  have htr : truncQ (w / (s : ℚ)) = ⌊w / (s : ℚ)⌋ := truncQ_of_nonneg hq
  have hfl : 0 ≤ ⌊w / (s : ℚ)⌋ := Int.floor_nonneg.mpr hq
  have hdiv : pyDiv (.num w) s = .num (w / (s : ℚ)) := by
    rw [pyDiv]; simp [hs.ne']
  constructor
  · rw [recordCount]
    rw [if_neg (by simp [PyFloat.isna])]
    rw [hdiv, pyInt]
    simp only []
    rw [htr]
  · refine ⟨_, synthesize_single (.num a) (.num b) w s g hs.ne' rfl rfl, ?_⟩
    rw [List.length_map, List.length_range, htr, Int.toNat_of_nonneg hfl]

/-- C1 witness at the spec scenario weight 250, scale factor 100. -/
theorem spec_C1_witness :
    recordCount 100 ⟨.num 22, .num 120, .num 250⟩ =
      (⌊(250 : ℚ) / ((100 : ℤ) : ℚ)⌋).toNat ∧
    ∃ ps, synthesize [⟨.num 22, .num 120, .num 250⟩] 100 (fun _ => (0 : ℚ)) = .ok ps ∧
      (ps.length : ℤ) = ⌊(250 : ℚ) / ((100 : ℤ) : ℚ)⌋ :=
  spec_C1 22 120 250 100 (fun _ => 0) (by norm_num) (by norm_num)

/-- C2 as stated is false: the synthesizer is not total.  A record whose
weight coerces to +infinity passes the NaN filter and `int(inf / 100)`
raises OverflowError. -/
theorem spec_C2_counterexample :
    synthesize [⟨.num 22, .num 120, .inf⟩] 100 (fun _ => 0) =
      .error "OverflowError: cannot convert float infinity to integer" := by
  rw [synthesize, synthAuxS]
  rw [if_neg (by simp [PyFloat.isna])]
  have hdiv : pyDiv PyFloat.inf 100 = PyFloat.inf := by
    rw [pyDiv]; norm_num
  rw [hdiv, pyInt]
  rfl

/-- C2 (amended): the synthesizer never raises provided the scale factor is
nonzero (the UI slider guarantees 1 <= scaleFactor <= 5000) and no record's
coerced weight is an infinity; it then returns a point list for any records,
at worst filtering records and returning an empty sequence. -/
theorem spec_C2_amended (records : List RawRecord) (s : ℤ) (g : ℕ → ℚ)
    (hs : s ≠ 0)
    (hw : ∀ r ∈ records, r.weight ≠ PyFloat.inf ∧ r.weight ≠ PyFloat.neginf) :
    ∃ ps, synthesize records s g = .ok ps := by
  obtain ⟨ps, k', h⟩ := synthAuxS_total s g hs records hw 0
  exact ⟨ps, by rw [synthesize, h]; rfl⟩

/-- C2 amended witness on a small record list. -/
theorem spec_C2_amended_witness :
    ∃ ps, synthesize [⟨.num 1, .num 2, .num 100⟩] 3 (fun _ => (0 : ℚ)) = .ok ps :=
  spec_C2_amended [⟨.num 1, .num 2, .num 100⟩] 3 (fun _ => 0) (by norm_num)
    (by
      intro r hr
      rw [List.mem_singleton] at hr
      subst hr
      exact ⟨by simp, by simp⟩)

/-- C3 as stated is false: with scaleFactor = -100 <= 0 and a record of
weight -500, `int(-500 / -100) = 5` and the loop emits five points, not
zero. -/
theorem spec_C3_counterexample :
    synthesize [⟨.num 22, .num 120, .num (-500)⟩] (-100) (fun _ => 0) =
      .ok (List.replicate 5
        (⟨.num (22 + (0 : ℚ) / 500), .num (120 + (0 : ℚ) / 500)⟩ : Point)) ∧
    (List.replicate 5
      (⟨.num (22 + (0 : ℚ) / 500), .num (120 + (0 : ℚ) / 500)⟩ : Point)).length ≠ 0 := by
  constructor
  · rw [synthesize, synthAuxS_single_const 22 120 (-500) 0 (-100) 5 0
      (by norm_num) (by norm_num)]
    rfl
  · simp

/-- C3 (amended): scaleFactor <= 0 cannot occur in the program (the slider
enforces a minimum of 1).  If the loop is nevertheless run with a negative
scaleFactor, then for inputs whose weights are NaN or nonnegative finite
values it emits zero points in total and no division error occurs; a record
with negative weight, however, emits a positive number of points. -/
theorem spec_C3_amended (records : List RawRecord) (s : ℤ) (g : ℕ → ℚ)
    (hs : s < 0)
    (hw : ∀ r ∈ records, r.weight = PyFloat.nan ∨
      ∃ w, r.weight = PyFloat.num w ∧ 0 ≤ w) :
    synthesize records s g = .ok [] := by
  rw [synthesize, synthAuxS_negscale s g hs records hw 0]
  rfl

/-- C3 amended witness. -/
theorem spec_C3_amended_witness :
    synthesize [⟨.num 1, .num 2, .num 7⟩] (-5) (fun _ => (0 : ℚ)) = .ok [] :=
  spec_C3_amended [⟨.num 1, .num 2, .num 7⟩] (-5) (fun _ => 0) (by norm_num)
    (by
      intro r hr
      rw [List.mem_singleton] at hr
      subst hr
      exact Or.inr ⟨7, rfl, by norm_num⟩)

/-- C4 as stated is false for infinite values: pd.isna is false on an
infinity, so a record with latitude +inf (and finite weight 500, scale 100)
is NOT filtered out - it emits five points at infinite latitude. -/
theorem spec_C4_counterexample :
    (⟨.inf, .num 120, .num 500⟩ : RawRecord).lat.isna = false ∧
    synthesize [⟨.inf, .num 120, .num 500⟩] 100 (fun _ => 0) =
      .ok [⟨.inf, .num (120 + (0 : ℚ) / 500)⟩, ⟨.inf, .num (120 + (0 : ℚ) / 500)⟩,
        ⟨.inf, .num (120 + (0 : ℚ) / 500)⟩, ⟨.inf, .num (120 + (0 : ℚ) / 500)⟩,
        ⟨.inf, .num (120 + (0 : ℚ) / 500)⟩] := by
  refine ⟨rfl, ?_⟩
  rw [synthesize_single .inf (.num 120) 500 100 (fun _ => 0) (by norm_num) rfl rfl]
  have h5 : ((500 : ℚ) / ((100 : ℤ) : ℚ)) = ((5 : ℤ) : ℚ) := by norm_num
  rw [h5, truncQ_intCast]
  have hr : List.range (Int.toNat 5) = [0, 1, 2, 3, 4] := by decide
  rw [hr]
  simp [PyFloat.addQ]

/-- C4 (amended): every record with a NaN latitude, longitude or weight
(missing and non-numeric cells coerce to NaN) is silently filtered out,
contributing zero points, and removing it leaves the output for the other
records untouched; infinite values, by contrast, pass the filter. -/
theorem spec_C4_amended (l1 l2 : List RawRecord) (r : RawRecord) (s : ℤ)
    (g : ℕ → ℚ)
    (hr : (r.weight.isna || r.lat.isna || r.lon.isna) = true) :
    synthesize [r] s g = .ok [] ∧
    synthesize (l1 ++ r :: l2) s g = synthesize (l1 ++ l2) s g := by
  constructor
  · rw [synthesize, synthAuxS, if_pos hr, synthAuxS]
    rfl
  · rw [synthesize, synthesize, synthAuxS_skip s g r hr l1 l2 0]

/-- C4 amended witness: a NaN-weight record amid a valid one. -/
theorem spec_C4_amended_witness :
    synthesize [⟨.num 1, .num 2, .nan⟩] 10 (fun _ => (0 : ℚ)) = .ok [] ∧
    synthesize ([] ++ ⟨.num 1, .num 2, .nan⟩ :: [⟨.num 3, .num 4, .num 5⟩]) 10
        (fun _ => (0 : ℚ)) =
      synthesize ([] ++ [⟨.num 3, .num 4, .num 5⟩]) 10 (fun _ => (0 : ℚ)) :=
  spec_C4_amended [] [⟨.num 3, .num 4, .num 5⟩] ⟨.num 1, .num 2, .nan⟩ 10
    (fun _ => 0) rfl

/-- C5: every record with numeric fields and weight <= 0, and every record
whose floor(weight / scaleFactor) <= 0, contributes zero points (positive
scale factor). -/
theorem spec_C5 (a b w : ℚ) (s : ℤ) (g : ℕ → ℚ) (hs : 0 < s)
    (hw : w ≤ 0 ∨ ⌊w / (s : ℚ)⌋ ≤ 0) :
    synthesize [⟨.num a, .num b, .num w⟩] s g = .ok [] := by
  have hsq : (0 : ℚ) < (s : ℚ) := by exact_mod_cast hs
  have htr : truncQ (w / (s : ℚ)) ≤ 0 := by
    rcases hw with hw | hw
    · exact truncQ_nonpos (div_nonpos_of_nonpos_of_nonneg hw hsq.le)
    · rcases le_or_lt 0 (w / (s : ℚ)) with h0 | h0
      · rw [truncQ_of_nonneg h0]; exact hw
      · exact truncQ_nonpos h0.le
  rw [synthesize_single (.num a) (.num b) w s g hs.ne' rfl rfl]
  rw [Int.toNat_of_nonpos htr]
  rfl

/-- C5 witness at the spec scenario weight 50, scale factor 100. -/
theorem spec_C5_witness :
    synthesize [⟨.num 22, .num 120, .num 50⟩] 100 (fun _ => (0 : ℚ)) = .ok [] :=
  spec_C5 22 120 50 100 (fun _ => 0) (by norm_num) (Or.inr (by norm_num))

/-- C6: with the random generator modelled as a stream consumed in order,
each emitted point's latitude is the record's latitude plus a fresh draw
divided by 500, and its longitude is the record's longitude plus the next
fresh draw divided by 500: point i consumes draws 2i (latitude) and 2i+1
(longitude). -/
theorem spec_C6 (a b w : ℚ) (s : ℤ) (g : ℕ → ℚ) (hs : s ≠ 0) :
    synthesize [⟨.num a, .num b, .num w⟩] s g =
      .ok ((List.range (truncQ (w / (s : ℚ))).toNat).map (fun i =>
        ({ lat := .num (a + g (2 * i) / 500),
           lon := .num (b + g (2 * i + 1) / 500) } : Point))) := by
  rw [synthesize_single (.num a) (.num b) w s g hs rfl rfl]
  simp [PyFloat.addQ]

/-- C6 witness. -/
theorem spec_C6_witness :
    synthesize [⟨.num 22, .num 120, .num 250⟩] 100 (fun _ => (0 : ℚ)) =
      .ok ((List.range (truncQ ((250 : ℚ) / ((100 : ℤ) : ℚ))).toNat).map (fun _ =>
        ({ lat := .num (22 + (0 : ℚ) / 500),
           lon := .num (120 + (0 : ℚ) / 500) } : Point))) :=
  spec_C6 22 120 250 100 (fun _ => 0) (by norm_num)

/-- C7: two successful runs with identical records and scaleFactor but
arbitrary (different) random streams emit the same total number of points. -/
theorem spec_C7 (records : List RawRecord) (s : ℤ) (g1 g2 : ℕ → ℚ)
    (ps1 ps2 : List Point)
    (h1 : synthesize records s g1 = .ok ps1)
    (h2 : synthesize records s g2 = .ok ps2) :
    ps1.length = ps2.length := by
  rw [synthesize] at h1 h2
  rcases hx1 : synthAuxS s g1 records 0 with e | pk1
  · rw [hx1] at h1
    exact absurd h1 (by simp [Except.map])
  · rcases hx2 : synthAuxS s g2 records 0 with e | pk2
    · rw [hx2] at h2
      exact absurd h2 (by simp [Except.map])
    · rw [hx1] at h1
      rw [hx2] at h2
      simp only [Except.map, Except.ok.injEq] at h1 h2
      subst h1
      subst h2
      obtain ⟨c1, _⟩ := synthAuxS_ok s g1 records 0 pk1.1 pk1.2 (by rw [hx1])
      obtain ⟨c2, _⟩ := synthAuxS_ok s g2 records 0 pk2.1 pk2.2 (by rw [hx2])
      rw [c1, c2]

/-- C7 witness: same record and scale, two different streams, three points
each. -/
theorem spec_C7_witness :
    (List.replicate 3 (⟨.num (1 + (0 : ℚ) / 500), .num (2 + (0 : ℚ) / 500)⟩ : Point)).length =
    (List.replicate 3 (⟨.num (1 + (1 : ℚ) / 500), .num (2 + (1 : ℚ) / 500)⟩ : Point)).length := by
  have h1 : synthesize [⟨.num 1, .num 2, .num 300⟩] 100 (fun _ => (0 : ℚ)) =
      .ok (List.replicate 3 (⟨.num (1 + (0 : ℚ) / 500), .num (2 + (0 : ℚ) / 500)⟩ : Point)) := by
    rw [synthesize, synthAuxS_single_const 1 2 300 0 100 3 0 (by norm_num) (by norm_num)]
    rfl
  have h2 : synthesize [⟨.num 1, .num 2, .num 300⟩] 100 (fun _ => (1 : ℚ)) =
      .ok (List.replicate 3 (⟨.num (1 + (1 : ℚ) / 500), .num (2 + (1 : ℚ) / 500)⟩ : Point)) := by
    rw [synthesize, synthAuxS_single_const 1 2 300 1 100 3 0 (by norm_num) (by norm_num)]
    rfl
  exact spec_C7 [⟨.num 1, .num 2, .num 300⟩] 100 (fun _ => 0) (fun _ => 1) _ _ h1 h2

/-- C8: the synthesizer is pure apart from consuming the global random
stream: a run's output is the same function of the draws it consumes
wherever the stream index starts (so re-invoking it with the same re-supplied
records is just a fresh invocation on the remaining stream), and two
consecutive runs on the same records emit the same number of points. -/
theorem spec_C8 (records : List RawRecord) (s : ℤ) (g : ℕ → ℚ)
    (ps1 ps2 : List Point) (k1 k2 : ℕ)
    (h1 : synthAuxS s g records 0 = .ok (ps1, k1))
    (h2 : synthAuxS s g records k1 = .ok (ps2, k2)) :
    ps1.length = ps2.length ∧
    synthesize records s (fun i => g (k1 + i)) = .ok ps2 := by
  constructor
  · obtain ⟨c1, _⟩ := synthAuxS_ok s g records 0 ps1 k1 h1
    obtain ⟨c2, _⟩ := synthAuxS_ok s g records k1 ps2 k2 h2
    rw [c1, c2]
  · have hshift := synthAuxS_shift s g k1 records 0
    rw [Nat.add_zero] at hshift
    rw [h2] at hshift
    rw [synthesize]
    rcases hx : synthAuxS s (fun i => g (k1 + i)) records 0 with e | pk
    · rw [hx] at hshift
      exact absurd hshift (by simp [Except.map])
    · rw [hx] at hshift
      simp only [Except.map, Except.ok.injEq, Prod.mk.injEq] at hshift
      simp [Except.map, hshift.1]

/-- C8 witness: two consecutive runs on the same single record. -/
theorem spec_C8_witness :
    (List.replicate 3 (⟨.num (1 + (0 : ℚ) / 500), .num (2 + (0 : ℚ) / 500)⟩ : Point)).length =
      (List.replicate 3 (⟨.num (1 + (0 : ℚ) / 500), .num (2 + (0 : ℚ) / 500)⟩ : Point)).length ∧
    synthesize [⟨.num 1, .num 2, .num 300⟩] 100 (fun _ => (0 : ℚ)) =
      .ok (List.replicate 3 (⟨.num (1 + (0 : ℚ) / 500), .num (2 + (0 : ℚ) / 500)⟩ : Point)) := by
  have h1 : synthAuxS 100 (fun _ => (0 : ℚ)) [⟨.num 1, .num 2, .num 300⟩] 0 =
      .ok (List.replicate 3 (⟨.num (1 + (0 : ℚ) / 500), .num (2 + (0 : ℚ) / 500)⟩ : Point), 6) := by
    rw [synthAuxS_single_const 1 2 300 0 100 3 0 (by norm_num) (by norm_num)]
    rfl
  have h2 : synthAuxS 100 (fun _ => (0 : ℚ)) [⟨.num 1, .num 2, .num 300⟩] 6 =
      .ok (List.replicate 3 (⟨.num (1 + (0 : ℚ) / 500), .num (2 + (0 : ℚ) / 500)⟩ : Point), 12) := by
    rw [synthAuxS_single_const 1 2 300 0 100 3 6 (by norm_num) (by norm_num)]
    rfl
  exact spec_C8 [⟨.num 1, .num 2, .num 300⟩] 100 (fun _ => 0) _ _ 6 12 h1 h2

/-- C9: guess_column tries the candidate substrings in order against the
columns (case-insensitively), the earliest candidate's first matching column
wins, it falls back to the first column when nothing matches, and for a
non-empty column list the answer is always one of the columns. -/
theorem spec_C9 (ns columns : List (List Char)) (h : columns ≠ []) :
    (∃ c, guess_column ns columns = some c ∧ c ∈ columns) ∧
    ((∀ n ∈ ns, firstColMatch n columns = none) →
      guess_column ns columns = columns.head?) :=
  ⟨guess_column_mem ns columns h, fun hm => guess_column_fallback ns columns hm⟩

/-- C9 witness. -/
theorem spec_C9_witness :
    (∃ c, guess_column [['l', 'a', 't']] [['x'], ['L', 'A', 'T']] = some c ∧
      c ∈ [['x'], ['L', 'A', 'T']]) ∧
    ((∀ n ∈ [['l', 'a', 't']], firstColMatch n [['x'], ['L', 'A', 'T']] = none) →
      guess_column [['l', 'a', 't']] [['x'], ['L', 'A', 'T']] =
        [['x'], ['L', 'A', 'T']].head?) :=
  spec_C9 [['l', 'a', 't']] [['x'], ['L', 'A', 'T']] (by simp)

/-- C10: the output is grouped by source record in input order - the points
of an earlier batch of records all precede the points of a later batch. -/
theorem spec_C10 (rs1 rs2 : List RawRecord) (s : ℤ) (g : ℕ → ℚ) (k : ℕ)
    (ps1 ps2 : List Point) (k1 k2 : ℕ)
    (h1 : synthAuxS s g rs1 k = .ok (ps1, k1))
    (h2 : synthAuxS s g rs2 k1 = .ok (ps2, k2)) :
    synthAuxS s g (rs1 ++ rs2) k = .ok (ps1 ++ ps2, k2) :=
  synthAuxS_append s g rs1 rs2 k ps1 k1 ps2 k2 h1 h2

/-- C10 witness: one record then another, points concatenate in order. -/
theorem spec_C10_witness :
    synthAuxS 100 (fun _ => (0 : ℚ))
        ([⟨.num 1, .num 2, .num 100⟩] ++ [⟨.num 3, .num 4, .num 200⟩]) 0 =
      .ok (List.replicate 1 (⟨.num (1 + (0 : ℚ) / 500), .num (2 + (0 : ℚ) / 500)⟩ : Point) ++
        List.replicate 2 (⟨.num (3 + (0 : ℚ) / 500), .num (4 + (0 : ℚ) / 500)⟩ : Point), 6) := by
  have h1 : synthAuxS 100 (fun _ => (0 : ℚ)) [⟨.num 1, .num 2, .num 100⟩] 0 =
      .ok (List.replicate 1 (⟨.num (1 + (0 : ℚ) / 500), .num (2 + (0 : ℚ) / 500)⟩ : Point), 2) := by
    rw [synthAuxS_single_const 1 2 100 0 100 1 0 (by norm_num) (by norm_num)]
    rfl
  have h2 : synthAuxS 100 (fun _ => (0 : ℚ)) [⟨.num 3, .num 4, .num 200⟩] 2 =
      .ok (List.replicate 2 (⟨.num (3 + (0 : ℚ) / 500), .num (4 + (0 : ℚ) / 500)⟩ : Point), 6) := by
    rw [synthAuxS_single_const 3 4 200 0 100 2 2 (by norm_num) (by norm_num)]
    rfl
  exact spec_C10 [⟨.num 1, .num 2, .num 100⟩] [⟨.num 3, .num 4, .num 200⟩] 100
    (fun _ => 0) 0 _ _ 2 6 h1 h2

end DensityMap
